import Mathlib

/-!
Verification of the `player_sync` playlist synchronizer (`synchronizer.py`).

The development shallowly embeds the program:

* `PlayerSync.Norm` — the `normalize_name` filename normalizer.  The regex
  substitution `re.sub("[!@#$%^&*()'\"<>~_ ]+", '_', s)` is transcribed as a
  run-collapsing scan over the character list; Python's locale-independent
  `str.lower()` and `unicodedata.normalize('NFD', ·)` + combining-mark
  stripping are embedded by finite character tables covering the Basic Latin
  and Latin-1/Latin-Extended letter ranges (characters outside the tables are
  left unchanged / decompose to themselves, and the combining marks of the
  table are classified as category Mn).
* `PlayerSync.Paths` — POSIX path arithmetic (`os.path.normpath`, `join`,
  `relpath`, `isabs`) used by `prepare_path` and `Synchronizer.__init__`.
  A Python path string is represented as an absolute-flag plus the list of
  components obtained by splitting on the separator; each function transcribes
  the corresponding `posixpath` algorithm on those components.
* `PlayerSync.Order` — the iteration order `sorted(self._paths.items())` of
  `Synchronizer.positive_sync`, over string paths with Python's code-point
  string comparison and tuple comparison.
* `PlayerSync.Fs` — `Synchronizer._positive_sync_one` as a state transformer
  over an abstract syscall interface `Sys` (stat / makedirs / copyfile, each
  able to fail with an `OSError` carrying an errno), together with a concrete
  filesystem instance, and `Synchronizer.negative_sync` as a bottom-up walk
  over a directory tree.  Every filesystem call the code issues is recorded in
  a trace of `Op` events, so that dry-run and logging behaviour are visible.
-/

namespace PlayerSync

namespace Norm

/-- The character class of the regex in `normalize_name`:
`! @ # $ % ^ & * ( ) ' " < > ~ _` and space. -/
def punctChars : List Char :=
  ['!', '@', '#', '$', '%', '^', '&', '*', '(', ')',
   Char.ofNat 39, Char.ofNat 34, '<', '>', '~', '_', ' ']

def inSet (c : Char) : Bool := punctChars.contains c

/-- `re.sub("[...]+", '_', s)`: every maximal run of characters of the class
is replaced by a single underscore.  The boolean records whether the previous
character belonged to the class (i.e. whether we are inside a run). -/
def collapseAux : Bool → List Char → List Char
  | _, [] => []
  | prev, c :: rest =>
    if inSet c then
      if prev then collapseAux true rest else '_' :: collapseAux true rest
    else
      c :: collapseAux false rest

/-- Python `str.lower()` (locale independent), restricted to a finite table:
ASCII `A`–`Z` and the precomposed Latin-1 uppercase letters.  Characters not
in the table are left unchanged. -/
def lowerTable : List (Char × Char) :=
  [('A', 'a'), ('B', 'b'), ('C', 'c'), ('D', 'd'), ('E', 'e'), ('F', 'f'),
   ('G', 'g'), ('H', 'h'), ('I', 'i'), ('J', 'j'), ('K', 'k'), ('L', 'l'),
   ('M', 'm'), ('N', 'n'), ('O', 'o'), ('P', 'p'), ('Q', 'q'), ('R', 'r'),
   ('S', 's'), ('T', 't'), ('U', 'u'), ('V', 'v'), ('W', 'w'), ('X', 'x'),
   ('Y', 'y'), ('Z', 'z'),
   ('À', 'à'), ('Á', 'á'), ('Â', 'â'), ('Ã', 'ã'), ('Ä', 'ä'), ('Å', 'å'),
   ('Æ', 'æ'), ('Ç', 'ç'), ('È', 'è'), ('É', 'é'), ('Ê', 'ê'), ('Ë', 'ë'),
   ('Ì', 'ì'), ('Í', 'í'), ('Î', 'î'), ('Ï', 'ï'), ('Ð', 'ð'), ('Ñ', 'ñ'),
   ('Ò', 'ò'), ('Ó', 'ó'), ('Ô', 'ô'), ('Õ', 'õ'), ('Ö', 'ö'), ('Ø', 'ø'),
   ('Ù', 'ù'), ('Ú', 'ú'), ('Û', 'û'), ('Ü', 'ü'), ('Ý', 'ý'), ('Þ', 'þ')]

def pyLower (c : Char) : Char := (lowerTable.lookup c).getD c

/-- The combining marks (Unicode category Mn) appearing in the modelled
decompositions: grave, acute, circumflex, tilde, diaeresis, ring above,
cedilla. -/
def mnMarks : List Char :=
  [Char.ofNat 0x300, Char.ofNat 0x301, Char.ofNat 0x302, Char.ofNat 0x303,
   Char.ofNat 0x308, Char.ofNat 0x30A, Char.ofNat 0x327]

/-- `unicodedata.category c == 'Mn'` for the modelled characters. -/
def isMn (c : Char) : Bool := mnMarks.contains c

/-- Canonical decomposition (`unicodedata.normalize('NFD', ·)`), restricted
to the precomposed lowercase Latin-1 letters that the pipeline can actually
feed into it (lowercasing runs first); other characters decompose to
themselves. -/
def nfdTable : List (Char × List Char) :=
  [('à', ['a', Char.ofNat 0x300]), ('á', ['a', Char.ofNat 0x301]),
   ('â', ['a', Char.ofNat 0x302]), ('ã', ['a', Char.ofNat 0x303]),
   ('ä', ['a', Char.ofNat 0x308]), ('å', ['a', Char.ofNat 0x30A]),
   ('ç', ['c', Char.ofNat 0x327]), ('è', ['e', Char.ofNat 0x300]),
   ('é', ['e', Char.ofNat 0x301]), ('ê', ['e', Char.ofNat 0x302]),
   ('ë', ['e', Char.ofNat 0x308]), ('ì', ['i', Char.ofNat 0x300]),
   ('í', ['i', Char.ofNat 0x301]), ('î', ['i', Char.ofNat 0x302]),
   ('ï', ['i', Char.ofNat 0x308]), ('ñ', ['n', Char.ofNat 0x303]),
   ('ò', ['o', Char.ofNat 0x300]), ('ó', ['o', Char.ofNat 0x301]),
   ('ô', ['o', Char.ofNat 0x302]), ('õ', ['o', Char.ofNat 0x303]),
   ('ö', ['o', Char.ofNat 0x308]), ('ù', ['u', Char.ofNat 0x300]),
   ('ú', ['u', Char.ofNat 0x301]), ('û', ['u', Char.ofNat 0x302]),
   ('ü', ['u', Char.ofNat 0x308]), ('ý', ['y', Char.ofNat 0x301]),
   ('ÿ', ['y', Char.ofNat 0x308])]

def nfdChar (c : Char) : List Char := (nfdTable.lookup c).getD [c]

/-- The decomposition of one character with its combining marks stripped. -/
def stripChar (c : Char) : List Char := (nfdChar c).filter (fun d => isMn d = false)

/-- `normalize_name` from `synchronizer.py`: collapse punctuation runs to a
single underscore, lowercase, decompose to NFD and drop combining marks. -/
def normalize_name (orig_name : String) : String :=
  let name := String.mk (collapseAux false orig_name.data)
  let name := String.mk (name.data.map pyLower)
  String.mk ((name.data.flatMap nfdChar).filter (fun c => isMn c = false))

/-- The same pipeline on character lists (the `String` wrapper unfolded). -/
def normList (l : List Char) : List Char :=
  ((collapseAux false l).map pyLower).flatMap stripChar

/-- Input exhibiting non-idempotence: an acute combining mark standing alone
between two underscores. -/
def badInput : String := String.mk ['_', Char.ofNat 0x301, '_']

end Norm

namespace Paths

/-- A POSIX path string, as its absolute flag (a leading separator) plus the
components obtained by splitting on the separator. -/
structure RawPath where
  absFlag : Bool
  comps : List String
deriving DecidableEq, Repr

/-- `posixpath.isabs`. -/
def isabs (p : RawPath) : Bool := p.absFlag

/-- The component loop of `posixpath.normpath`: drop empty and `.` segments,
resolve `..` against a preceding real component, keep leading `..` segments
of relative paths, drop leading `..` segments of absolute paths. -/
def normLoop (hasRoot : Bool) : List String → List String → List String
  | acc, [] => acc
  | acc, c :: rest =>
    if c = "" ∨ c = "." then normLoop hasRoot acc rest
    else if c ≠ ".." ∨ (hasRoot = false ∧ acc = []) ∨ acc.getLast? = some ".." then
      normLoop hasRoot (acc ++ [c]) rest
    else if acc ≠ [] then normLoop hasRoot acc.dropLast rest
    else normLoop hasRoot acc rest

/-- `posixpath.normpath` (an empty relative result renders as `.`). -/
def normpath (p : RawPath) : RawPath :=
  let comps := normLoop p.absFlag [] p.comps
  if p.absFlag then ⟨true, comps⟩
  else if comps = [] then ⟨false, ["."]⟩
  else ⟨false, comps⟩

/-- `posixpath.join` for two arguments: an absolute second path wins,
otherwise the components are concatenated. -/
def join (a b : RawPath) : RawPath :=
  if b.absFlag then b else ⟨a.absFlag, a.comps ++ b.comps⟩

/-- `posixpath.abspath`, with the working directory passed explicitly. -/
def abspath (p cwd : RawPath) : RawPath := normpath (join cwd p)

def commonLen : List String → List String → Nat
  | a :: as, b :: bs => if a = b then commonLen as bs + 1 else 0
  | _, _ => 0

/-- `posixpath.relpath p start`: make both absolute, strip the common
component run, climb with `..` for what remains of `start`. -/
def relpath (p start cwd : RawPath) : RawPath :=
  let pl := (abspath p cwd).comps
  let sl := (abspath start cwd).comps
  let i := commonLen sl pl
  let rel := List.replicate (sl.length - i) ".." ++ pl.drop i
  if rel = [] then ⟨false, ["."]⟩ else ⟨false, rel⟩

/-- `prepare_path` from `synchronizer.py`. -/
def prepare_path (path origin cwd : RawPath) : RawPath :=
  if isabs path then normpath (relpath path origin cwd) else normpath path

/-- One entry of the mapping built in `Synchronizer.__init__`:
`os.path.join(dest, normalize(x))` maps to `os.path.join(source, x)`. -/
def mappingEntry (source dest : RawPath) (normalize : RawPath → RawPath)
    (x : RawPath) : RawPath × RawPath :=
  (join dest (normalize x), join source x)

/-- `p` lies in the subtree rooted at `root` (inclusively): after
normalisation it has the same absoluteness and `root`'s components as a
leading run. -/
def isUnder (p root : RawPath) : Bool :=
  ((normpath p).absFlag == root.absFlag) && root.comps.isPrefixOf (normpath p).comps

/-- A component that is a plain name: not empty, not `.`, not `..`. -/
def isNormalComp (c : String) : Bool :=
  !(c == "") && !(c == ".") && !(c == "..")

/-- Concrete escaping playlist entry `../evil.mp3`. -/
def rawEx : RawPath := ⟨false, ["..", "evil.mp3"]⟩

def sourceEx : RawPath := ⟨true, ["music"]⟩

def destEx : RawPath := ⟨true, ["dest"]⟩

def cwdEx : RawPath := ⟨true, []⟩

end Paths

namespace Order

/-- Python string comparison: lexicographic on code points. -/
def charListLt : List Char → List Char → Bool
  | [], [] => false
  | [], _ :: _ => true
  | _ :: _, [] => false
  | a :: as, b :: bs =>
    if a < b then true else if b < a then false else charListLt as bs

def strLt (a b : String) : Bool := charListLt a.data b.data

def strLe (a b : String) : Bool := strLt a b || a == b

/-- Python tuple comparison on `(destination, source)` pairs, as used by
`sorted(self._paths.items())`. -/
def tupleLe (x y : String × String) : Bool :=
  if x.1 = y.1 then strLe x.2 y.2 else strLt x.1 y.1

/-- The iteration order of `Synchronizer.positive_sync`:
`sorted(self._paths.items())` over the mapping's items (Python `sorted` is a
stable comparison sort). -/
def positive_sync_order (paths : List (String × String)) : List (String × String) :=
  paths.mergeSort tupleLe

end Order

namespace Fs

/-- A filesystem path, already resolved to its components. -/
abbrev Path := List String

/-- The slice of `os.stat_result` the synchronizer consults:
`stat.S_ISREG(st_mode)`, `st_size`, `st_mtime`. -/
structure StatResult where
  st_isreg : Bool
  st_size : Nat
  st_mtime : Int
deriving DecidableEq, Repr

/-- A raised `OSError`, identified by its errno. -/
structure OSError where
  errno : Nat
deriving DecidableEq, Repr

def eNOENT : Nat := 2
def eACCES : Nat := 13
def eEXIST : Nat := 17
def eNOTDIR : Nat := 20
def eISDIR : Nat := 21

/-- One event of a run: each filesystem call issued, each dry-run line
printed, and each log message. -/
inductive Op where
  | unlinkOp (p : Path)
  | rmdirOp (p : Path)
  | makedirsOp (p : Path)
  | copyfileOp (src dst : Path)
  | wouldUnlink (p : Path)
  | wouldRmdir (p : Path)
  | wouldMakedirs (p : Path)
  | wouldCopyfile (src dst : Path)
  | debugRemoveFile (p : Path)
  | debugRemoveDir (p : Path)
  | warnNotRegular (rel : Path)
  | debugSkip (rel : Path)
  | debugCopy (rel : Path)
deriving DecidableEq, Repr

/-- Whether the event is a mutating filesystem call
(`os.unlink`, `os.rmdir`, `os.makedirs`, `shutil.copyfile`). -/
def Op.mutates : Op → Bool
  | .unlinkOp _ | .rmdirOp _ | .makedirsOp _ | .copyfileOp _ _ => true
  | _ => false

/-- The syscall interface `_positive_sync_one` runs against, over an abstract
filesystem state `σ`.  `stat` is read-only; `makedirs` and `copyfile` return
the mutated state or raise. -/
structure Sys (σ : Type) where
  stat : σ → Path → Except OSError StatResult
  makedirs : σ → Path → Except OSError σ
  copyfile : σ → Path → Path → Except OSError σ

/-- `os.path.relpath source self._source` on component paths:
climb out of the uncommon part of the start path, then descend. -/
def relpathComps (p root : Path) : Path :=
  let i := Paths.commonLen root p
  List.replicate (root.length - i) ".." ++ p.drop i

/-- Whether the destination is up to date, exactly as tested by
`_positive_sync_one`: the destination stat succeeded (`dest_stat` is truthy),
the sizes agree, and the destination is at least as recent. -/
def destUpToDate (dest_stat : Option StatResult) (source_stat : StatResult) : Bool :=
  match dest_stat with
  | some d => decide (d.st_size = source_stat.st_size)
      && decide (source_stat.st_mtime ≤ d.st_mtime)
  | none => false

/-- The copy step at the end of `_positive_sync_one`:
`shutil.copyfile(source, dest)` unless dry-run, in which case only the
intended action is printed. -/
def doCopy {σ : Type} (S : Sys σ) (dryRun : Bool) (st : σ) (source dest : Path)
    (ops : List Op) : Except OSError (σ × List Op) :=
  if dryRun then .ok (st, ops ++ [.wouldCopyfile source dest])
  else
    match S.copyfile st source dest with
    | .ok st2 => .ok (st2, ops ++ [.copyfileOp source dest])
    | .error e => .error e

/-- `Synchronizer._positive_sync_one(source, dest)`, transcribed branch for
branch.  A raised `OSError` from the source stat propagates; a non-regular
source is logged and skipped; a failed destination stat is treated as a
missing destination; the staleness test decides between skip and copy;
`os.makedirs` failures with errno `EEXIST` are swallowed, all others
propagate; finally the file is copied. -/
def positive_sync_one {σ : Type} (S : Sys σ) (sourceRoot : Path) (dryRun : Bool)
    (st : σ) (source dest : Path) : Except OSError (σ × List Op) :=
  match S.stat st source with
  | .error e => .error e
  | .ok source_stat =>
    let rel := relpathComps source sourceRoot
    if source_stat.st_isreg = false then .ok (st, [.warnNotRegular rel])
    else
      let dest_stat : Option StatResult := (S.stat st dest).toOption
      if destUpToDate dest_stat source_stat then .ok (st, [.debugSkip rel])
      else
        let dir_name := dest.dropLast
        let mk : Except OSError (σ × List Op) :=
          if dryRun then .ok (st, [.debugCopy rel, .wouldMakedirs dir_name])
          else
            match S.makedirs st dir_name with
            | .ok st2 => .ok (st2, [.debugCopy rel, .makedirsOp dir_name])
            | .error e =>
              if e.errno = eEXIST then .ok (st, [.debugCopy rel, .makedirsOp dir_name])
              else .error e
        match mk with
        | .error e => .error e
        | .ok (st2, ops) => doCopy S dryRun st2 source dest ops

/-- Ordering of component paths used to mirror `sorted` inside the
state-level pass (Lean rendering of the sort; the string-level order is
studied in `PlayerSync.Order`). -/
def pathLe : Path → Path → Bool
  | [], _ => true
  | _ :: _, [] => false
  | a :: as, b :: bs =>
    if a = b then pathLe as bs
    else Order.strLt a b

def pairPathLe (x y : Path × Path) : Bool := pathLe x.1 y.1

/-- The loop body of `Synchronizer.positive_sync`: process the ordered
`(dest, source)` pairs, threading the filesystem state and stopping at the
first raised error. -/
def syncList {σ : Type} (S : Sys σ) (sourceRoot : Path) (dryRun : Bool) :
    σ → List (Path × Path) → Except OSError (σ × List Op)
  | st, [] => .ok (st, [])
  | st, (dest, source) :: rest =>
    match positive_sync_one S sourceRoot dryRun st source dest with
    | .error e => .error e
    | .ok (st2, ops) =>
      match syncList S sourceRoot dryRun st2 rest with
      | .error e => .error e
      | .ok (st3, ops2) => .ok (st3, ops ++ ops2)

/-- `Synchronizer.positive_sync`: the mapping's items, sorted, each handed to
`_positive_sync_one`. -/
def positive_sync {σ : Type} (S : Sys σ) (sourceRoot : Path) (dryRun : Bool)
    (st : σ) (paths : List (Path × Path)) : Except OSError (σ × List Op) :=
  syncList S sourceRoot dryRun st (paths.mergeSort pairPathLe)

/-- A filesystem node: a regular file (content bytes, modification time,
permission bits) or a directory. -/
inductive Node where
  | file (content : List Nat) (mtime : Int) (mode : Nat)
  | dir
deriving DecidableEq, Repr

/-- A concrete flat filesystem: absolute component paths to nodes. -/
abbrev FS := List (Path × Node)

/-- New files get mode bits from the process umask, independent of the
source file; `0o644`. -/
def defaultMode : Nat := 420

/-- `os.stat`: size is the content length, regular-file bit from the node
kind, a missing path raises `ENOENT`. -/
def statFS (fs : FS) (p : Path) : Except OSError StatResult :=
  match fs.lookup p with
  | some (.file content mtime _) => .ok ⟨true, content.length, mtime⟩
  | some .dir => .ok ⟨false, 0, 0⟩
  | none => .error ⟨eNOENT⟩

def fsSet (fs : FS) (p : Path) (n : Node) : FS :=
  (p, n) :: fs.filter (fun q => !(q.1 == p))

/-- All nonempty leading runs of a path's components. -/
def ancestors (p : Path) : List Path :=
  (List.range p.length).map (fun i => p.take (i + 1))

/-- `os.makedirs` without `exist_ok`: raises `EEXIST` when the leaf already
exists, `ENOTDIR` when a leading run is a file, otherwise creates every
missing directory of the chain. -/
def makedirsFS (fs : FS) (p : Path) : Except OSError FS :=
  if (fs.lookup p).isSome then .error ⟨eEXIST⟩
  else if (ancestors p).any (fun q =>
      match fs.lookup q with | some (.file _ _ _) => true | _ => false) then
    .error ⟨eNOTDIR⟩
  else
    .ok ((ancestors p).foldl
      (fun acc q => if (acc.lookup q).isSome then acc else fsSet acc q .dir) fs)

/-- `shutil.copyfile(src, dst)`: copies the content only.  The destination's
modification time becomes the time of the copy (`now`), its mode stays as it
was (existing file) or comes from the umask (new file); nothing is taken from
the source's metadata. -/
def copyfileFS (now : Int) (fs : FS) (src dst : Path) : Except OSError FS :=
  match fs.lookup src with
  | some (.file content _ _) =>
    (match fs.lookup dst with
     | some (.file _ _ dmode) => .ok (fsSet fs dst (.file content now dmode))
     | some .dir => .error ⟨eISDIR⟩
     | none =>
       if dst.dropLast = [] then .ok (fsSet fs dst (.file content now defaultMode))
       else
         match fs.lookup dst.dropLast with
         | some .dir => .ok (fsSet fs dst (.file content now defaultMode))
         | _ => .error ⟨eNOENT⟩)
  | some .dir => .error ⟨eISDIR⟩
  | none => .error ⟨eNOENT⟩

/-- The real-filesystem instantiation of the syscall interface, at clock
time `now`. -/
def fsSys (now : Int) : Sys FS where
  stat := statFS
  makedirs := makedirsFS
  copyfile := copyfileFS now

end Fs

namespace Neg

open Fs

/- The destination tree walked by `negative_sync`; file metadata is
irrelevant to that pass. -/
mutual
inductive FTree where
  | file : FTree
  | dir (entries : Entries) : FTree
deriving Repr
inductive Entries where
  | nil : Entries
  | cons (name : String) (child : FTree) (rest : Entries) : Entries
deriving Repr
end

def Entries.isNil : Entries → Bool
  | .nil => true
  | .cons _ _ _ => false

/- `Synchronizer.negative_sync`, transcribed as the bottom-up walk
(`os.walk(dest, topdown=False)`): subdirectories are processed before their
parent, every file whose path is not a mapping key is unlinked (or the intent
printed under dry-run), and a directory found empty by `os.listdir` is
removed (or the intent printed).  `keep` is membership in `self._paths`.
`negEntries` processes the children of one directory and returns the
surviving entries with the event trace; `negDirAt` adds the emptiness check
of the directory itself. -/
mutual
def negEntries (keep : Path → Bool) (dry : Bool) (p : Path) :
    Entries → Entries × List Op
  | .nil => (.nil, [])
  | .cons name .file rest =>
    let r := negEntries keep dry p rest
    let fp := p ++ [name]
    if keep fp then (.cons name .file r.1, r.2)
    else if dry then
      (.cons name .file r.1, Op.debugRemoveFile fp :: Op.wouldUnlink fp :: r.2)
    else (r.1, Op.debugRemoveFile fp :: Op.unlinkOp fp :: r.2)
  | .cons name (.dir es) rest =>
    let c := negDirAt keep dry (p ++ [name]) es
    let r := negEntries keep dry p rest
    match c.1 with
    | some t => (.cons name t r.1, c.2 ++ r.2)
    | none => (r.1, c.2 ++ r.2)
def negDirAt (keep : Path → Bool) (dry : Bool) (p : Path) (es : Entries) :
    Option FTree × List Op :=
  let r := negEntries keep dry p es
  if r.1.isNil then
    if dry then (some (.dir r.1), r.2 ++ [Op.debugRemoveDir p, Op.wouldRmdir p])
    else (none, r.2 ++ [Op.debugRemoveDir p, Op.rmdirOp p])
  else (some (.dir r.1), r.2)
end

/-- `negative_sync` on the destination root.  Walking a non-directory root
yields an empty traversal (`os.walk` of a file or missing path), so the pass
does nothing; the root directory itself goes through the same emptiness
check as every other directory. -/
def negative_sync (keep : Path → Bool) (dry : Bool) (destRoot : Path)
    (t : FTree) : Option FTree × List Op :=
  match t with
  | .file => (some .file, [])
  | .dir es => negDirAt keep dry destRoot es

/-- Sample destination tree: `d/x.mp3`, `d/sub/y.mp3`. -/
def treeEx : FTree :=
  .dir (.cons "x.mp3" .file (.cons "sub" (.dir (.cons "y.mp3" .file .nil)) .nil))

end Neg

namespace Fs

/-- Sample filesystem: directory `s` with file `s/a` (2 bytes, mtime 100,
mode `0o750`), empty directory `d`. -/
def fsEx : FS :=
  [(["s"], .dir), (["s", "a"], .file [1, 2] 100 488), (["d"], .dir)]

/-- As `fsEx`, with a destination `d/a` of equal size and newer mtime. -/
def fsUp : FS :=
  [(["s"], .dir), (["s", "a"], .file [1, 2] 100 488), (["d"], .dir),
   (["d", "a"], .file [9, 9] 150 420)]

/-- Sample filesystem where the source path is a directory. -/
def fsDirSrc : FS := [(["s"], .dir), (["s", "a"], .dir)]

/-- A syscall environment whose destination stat fails with `EACCES`
(permission denied) while the source stats as a regular file. -/
def permDenySys : Sys Nat where
  stat := fun _ p => if p = ["d", "a"] then .error ⟨eACCES⟩ else .ok ⟨true, 2, 100⟩
  makedirs := fun n _ => .ok n
  copyfile := fun n _ _ => .ok (n + 1)

/-- A syscall environment whose `makedirs` fails with the given errno;
the source stats as a regular file and the destination as missing. -/
def mkFailSys (err : Nat) : Sys Nat where
  stat := fun _ p => if p = ["s", "a"] then .ok ⟨true, 2, 100⟩ else .error ⟨eNOENT⟩
  makedirs := fun _ _ => .error ⟨err⟩
  copyfile := fun n _ _ => .ok (n + 1)

end Fs

open Fs in
/-- Helper: the skip branch of `_positive_sync_one`. -/
theorem posOne_skip {σ : Type} {S : Sys σ} {st : σ}
    {root source dest : Path} {sstat : StatResult}
    (hs : S.stat st source = .ok sstat) (hreg : sstat.st_isreg = true)
    (hup : destUpToDate (S.stat st dest).toOption sstat = true) :
    positive_sync_one S root false st source dest
      = .ok (st, [.debugSkip (relpathComps source root)]) := by
  simp only [positive_sync_one, hs, hreg]
  rw [hup]
  simp

open Fs in
/-- Helper: the copy branch of `_positive_sync_one`, when `makedirs` either
succeeds or fails with `EEXIST` and the copy succeeds. -/
theorem posOne_copy {σ : Type} {S : Sys σ} {st st2 st3 : σ}
    {root source dest : Path} {sstat : StatResult}
    (hs : S.stat st source = .ok sstat) (hreg : sstat.st_isreg = true)
    (hnup : destUpToDate (S.stat st dest).toOption sstat = false)
    (hmk : S.makedirs st dest.dropLast = .ok st2 ∨
      (S.makedirs st dest.dropLast = .error ⟨eEXIST⟩ ∧ st2 = st))
    (hcp : S.copyfile st2 source dest = .ok st3) :
    positive_sync_one S root false st source dest
      = .ok (st3, [.debugCopy (relpathComps source root),
          .makedirsOp dest.dropLast, .copyfileOp source dest]) := by
  simp only [positive_sync_one, hs, hreg]
  rw [hnup]
  rcases hmk with hok | ⟨herr, hst⟩
  · rw [hok]
    simp [doCopy, hcp]
  · subst hst
    rw [herr]
    simp [doCopy, hcp, eEXIST]

open Fs in
/-- Helper: the staleness test unfolded to its three conjuncts. -/
theorem destUpToDate_iff {σ : Type} (S : Sys σ) (st : σ) (dest : Path)
    (sstat : StatResult) :
    destUpToDate (S.stat st dest).toOption sstat = true ↔
      ∃ ds, S.stat st dest = .ok ds ∧ ds.st_size = sstat.st_size ∧
        sstat.st_mtime ≤ ds.st_mtime := by
  cases h : S.stat st dest with
  | ok ds =>
    simp [destUpToDate, h, Except.toOption, Bool.and_eq_true, decide_eq_true_iff]
  | error e =>
    simp [destUpToDate, h, Except.toOption]

open Fs in
/-- C1: with a regular source file, `_positive_sync_one` skips the copy
exactly when the destination stat succeeds with equal size and a modification
time at least the source's; otherwise it proceeds to the copy. -/
theorem staleness_policy {σ : Type} (S : Sys σ) (st : σ)
    (root source dest : Path) (sstat : StatResult)
    (hs : S.stat st source = .ok sstat) (hreg : sstat.st_isreg = true) :
    (destUpToDate (S.stat st dest).toOption sstat = true ↔
      ∃ ds, S.stat st dest = .ok ds ∧ ds.st_size = sstat.st_size ∧
        sstat.st_mtime ≤ ds.st_mtime)
    ∧ (destUpToDate (S.stat st dest).toOption sstat = true →
        positive_sync_one S root false st source dest
          = .ok (st, [.debugSkip (relpathComps source root)]))
    ∧ (destUpToDate (S.stat st dest).toOption sstat = false →
        ∀ st2 st3, (S.makedirs st dest.dropLast = .ok st2 ∨
            (S.makedirs st dest.dropLast = .error ⟨eEXIST⟩ ∧ st2 = st)) →
          S.copyfile st2 source dest = .ok st3 →
          positive_sync_one S root false st source dest
            = .ok (st3, [.debugCopy (relpathComps source root),
                .makedirsOp dest.dropLast, .copyfileOp source dest])) :=
  ⟨destUpToDate_iff S st dest sstat,
   fun hup => posOne_skip hs hreg hup,
   fun hnup _ _ hmk hcp => posOne_copy hs hreg hnup hmk hcp⟩

open Fs in
/-- Witness for C1: destination `d/a` has the source's size and a newer
mtime, so the entry is skipped. -/
theorem staleness_policy_witness :
    (fsSys 200).stat fsUp ["s", "a"] = .ok ⟨true, 2, 100⟩ ∧
    destUpToDate ((fsSys 200).stat fsUp ["d", "a"]).toOption ⟨true, 2, 100⟩ = true ∧
    positive_sync_one (fsSys 200) ["s"] false fsUp ["s", "a"] ["d", "a"]
      = .ok (fsUp, [.debugSkip ["a"]]) :=
  ⟨rfl, rfl,
    (staleness_policy (fsSys 200) fsUp ["s"] ["s", "a"] ["d", "a"]
      ⟨true, 2, 100⟩ rfl rfl).2.1 rfl⟩

open Fs in
/-- C4: a source that stats as a non-regular file is logged (warning naming
the source-relative path) and skipped without copying and without failing;
a source whose stat raises propagates the error, which also aborts the
surrounding `positive_sync` loop. -/
theorem nonregular_source_skipped {σ : Type} (S : Sys σ) (root : Path)
    (dry : Bool) (st : σ) (source dest : Path) :
    (∀ sstat, S.stat st source = .ok sstat → sstat.st_isreg = false →
      positive_sync_one S root dry st source dest
        = .ok (st, [.warnNotRegular (relpathComps source root)]))
    ∧ (∀ e, S.stat st source = .error e →
      positive_sync_one S root dry st source dest = .error e)
    ∧ (∀ e rest, S.stat st source = .error e →
      syncList S root dry st ((dest, source) :: rest) = .error e) := by
  refine ⟨?_, ?_, ?_⟩
  · intro sstat hs hnreg
    simp [positive_sync_one, hs, hnreg]
  · intro e hs
    simp [positive_sync_one, hs]
  · intro e rest hs
    simp [syncList, positive_sync_one, hs]

open Fs in
/-- Witness for C4: `s/a` is a directory, so the entry is only warned about;
a missing source path aborts with the raised `ENOENT`. -/
theorem nonregular_source_skipped_witness :
    positive_sync_one (fsSys 0) ["s"] false fsDirSrc ["s", "a"] ["d", "a"]
      = .ok (fsDirSrc, [.warnNotRegular ["a"]]) ∧
    positive_sync_one (fsSys 0) ["s"] false fsEx ["nope"] ["d", "a"]
      = .error ⟨eNOENT⟩ :=
  ⟨(nonregular_source_skipped (fsSys 0) ["s"] false fsDirSrc ["s", "a"] ["d", "a"]).1
      ⟨false, 0, 0⟩ rfl rfl,
   (nonregular_source_skipped (fsSys 0) ["s"] false fsEx ["nope"] ["d", "a"]).2.1
      ⟨eNOENT⟩ rfl⟩

open Fs in
/-- C7: when the recursive directory creation raises, an errno of `EEXIST`
is treated as success and processing continues with the copy step; any other
errno propagates out of `_positive_sync_one`. -/
theorem makedirs_eexist_tolerated {σ : Type} (S : Sys σ) (st : σ)
    (root source dest : Path) (sstat : StatResult) (e : OSError)
    (hs : S.stat st source = .ok sstat) (hreg : sstat.st_isreg = true)
    (hnup : destUpToDate (S.stat st dest).toOption sstat = false)
    (hmk : S.makedirs st dest.dropLast = .error e) :
    (e.errno = eEXIST →
      positive_sync_one S root false st source dest
        = doCopy S false st source dest
            [.debugCopy (relpathComps source root), .makedirsOp dest.dropLast])
    ∧ (e.errno ≠ eEXIST →
      positive_sync_one S root false st source dest = .error e) := by
  constructor
  · intro hex
    simp only [positive_sync_one, hs, hreg]
    rw [hnup]
    rw [hmk]
    simp [hex]
  · intro hnex
    simp only [positive_sync_one, hs, hreg]
    rw [hnup]
    rw [hmk]
    simp [hnex]

open Fs in
/-- Witness for C7: a `makedirs` failure with errno 17 (`EEXIST`) lets the
copy proceed; one with errno 13 (`EACCES`) is fatal. -/
theorem makedirs_eexist_tolerated_witness :
    positive_sync_one (mkFailSys 17) ["s"] false 0 ["s", "a"] ["d", "a"]
      = doCopy (mkFailSys 17) false 0 ["s", "a"] ["d", "a"]
          [.debugCopy ["a"], .makedirsOp ["d"]] ∧
    positive_sync_one (mkFailSys 13) ["s"] false 0 ["s", "a"] ["d", "a"]
      = .error ⟨13⟩ :=
  ⟨(makedirs_eexist_tolerated (mkFailSys 17) 0 ["s"] ["s", "a"] ["d", "a"]
      ⟨true, 2, 100⟩ ⟨17⟩ rfl rfl rfl rfl).1 rfl,
   (makedirs_eexist_tolerated (mkFailSys 13) 0 ["s"] ["s", "a"] ["d", "a"]
      ⟨true, 2, 100⟩ ⟨13⟩ rfl rfl rfl rfl).2 (by decide)⟩

open Fs in
/-- C9: any `OSError` from the destination stat — not only a missing file —
makes `_positive_sync_one` treat the destination as absent and proceed to the
copy instead of propagating the error. -/
theorem dest_stat_error_copies {σ : Type} (S : Sys σ) (st : σ)
    (root source dest : Path) (sstat : StatResult) (e : OSError)
    (hs : S.stat st source = .ok sstat) (hreg : sstat.st_isreg = true)
    (hd : S.stat st dest = .error e) :
    destUpToDate (S.stat st dest).toOption sstat = false
    ∧ (∀ st2 st3, (S.makedirs st dest.dropLast = .ok st2 ∨
          (S.makedirs st dest.dropLast = .error ⟨eEXIST⟩ ∧ st2 = st)) →
        S.copyfile st2 source dest = .ok st3 →
        positive_sync_one S root false st source dest
          = .ok (st3, [.debugCopy (relpathComps source root),
              .makedirsOp dest.dropLast, .copyfileOp source dest])) := by
  have hfalse : destUpToDate (S.stat st dest).toOption sstat = false := by
    rw [hd]
    simp [destUpToDate, Except.toOption]
  exact ⟨hfalse, fun _ _ hmk hcp => posOne_copy hs hreg hfalse hmk hcp⟩

open Fs in
/-- C2 (amended): a non-dry-run copy transfers the file content only — the
new destination file has the source's bytes (hence its size), the
modification time of the moment of copying, and mode bits from the umask;
nothing is taken from the source's metadata. -/
theorem copy_content_only (fs : FS) (root src dst : Path) (now : Int)
    (content : List Nat) (mt : Int) (md : Nat)
    (hs : fs.lookup src = some (.file content mt md))
    (hd : fs.lookup dst = none)
    (hparent : fs.lookup dst.dropLast = some .dir) :
    positive_sync_one (fsSys now) root false fs src dst
      = .ok (fsSet fs dst (.file content now defaultMode),
          [.debugCopy (relpathComps src root), .makedirsOp dst.dropLast,
           .copyfileOp src dst]) := by
  have hstat : (fsSys now).stat fs src = .ok ⟨true, content.length, mt⟩ := by
    simp [fsSys, statFS, hs]
  have hnup : destUpToDate ((fsSys now).stat fs dst).toOption
      ⟨true, content.length, mt⟩ = false := by
    simp [fsSys, statFS, hd, destUpToDate, Except.toOption]
  have hmk : (fsSys now).makedirs fs dst.dropLast = .error ⟨eEXIST⟩ := by
    simp [fsSys, makedirsFS, hparent]
  have hcp : (fsSys now).copyfile fs src dst
      = .ok (fsSet fs dst (.file content now defaultMode)) := by
    simp only [fsSys, copyfileFS, hs, hd]
    by_cases hz : dst.dropLast = []
    · simp [hz]
    · simp [hz, hparent]
  exact posOne_copy hstat rfl hnup (Or.inr ⟨hmk, rfl⟩) hcp

open Fs in
/-- Witness for C2 (amended): copying `s/a` (2 bytes, mtime 100, mode
`0o750`) to the missing `d/a` at time 200 yields `d/a` with the same bytes,
mtime 200 and mode `0o644`. -/
theorem copy_content_only_witness :
    positive_sync_one (fsSys 200) ["s"] false fsEx ["s", "a"] ["d", "a"]
      = .ok (fsSet fsEx ["d", "a"] (.file [1, 2] 200 defaultMode),
          [.debugCopy ["a"], .makedirsOp ["d"],
           .copyfileOp ["s", "a"] ["d", "a"]]) :=
  copy_content_only fsEx ["s"] ["s", "a"] ["d", "a"] 200 [1, 2] 100 488
    rfl rfl rfl

open Fs in
/-- Counterexample to C2 as stated: after the copy the destination's
modification time is the copy time 200, not the source's 100, and its mode
is `0o644`, not the source's `0o750` — `shutil.copyfile` preserves no
metadata. -/
theorem copy_not_metadata_preserving :
    positive_sync_one (fsSys 200) ["s"] false fsEx ["s", "a"] ["d", "a"]
      = .ok ((["d", "a"], Node.file [1, 2] 200 420) :: fsEx,
          [.debugCopy ["a"], .makedirsOp ["d"],
           .copyfileOp ["s", "a"] ["d", "a"]])
    ∧ fsEx.lookup ["s", "a"] = some (.file [1, 2] 100 488)
    ∧ ((200 : Int) = 100 → False) ∧ ((420 : Nat) = 488 → False) :=
  ⟨rfl, rfl, by decide, by decide⟩

open Fs in
/-- Witness for C9: the destination stat fails with `EACCES` (permission
denied), and the copy still happens. -/
theorem dest_stat_error_copies_witness :
    permDenySys.stat 0 ["d", "a"] = .error ⟨eACCES⟩ ∧
    positive_sync_one permDenySys ["s"] false 0 ["s", "a"] ["d", "a"]
      = .ok (1, [.debugCopy ["a"], .makedirsOp ["d"],
          .copyfileOp ["s", "a"] ["d", "a"]]) :=
  ⟨rfl,
    (dest_stat_error_copies permDenySys 0 ["s"] ["s", "a"] ["d", "a"]
      ⟨true, 2, 100⟩ ⟨eACCES⟩ rfl rfl rfl).2 0 1 (Or.inl rfl) rfl⟩

open Fs in
/-- Helper: a dry-run `_positive_sync_one` leaves the state unchanged and
records no mutating call. -/
theorem posOne_dry {σ : Type} (S : Sys σ) (root : Path) (st : σ)
    (source dest : Path) (st2 : σ) (ops : List Op)
    (h : positive_sync_one S root true st source dest = .ok (st2, ops)) :
    st2 = st ∧ ops.all (fun o => !o.mutates) = true := by
  unfold positive_sync_one at h
  split at h
  · exact absurd h (by simp)
  · simp only [if_true, doCopy] at h
    split at h
    · obtain ⟨h1, h2⟩ := Prod.mk.injEq .. ▸ (Except.ok.injEq .. ▸ h)
      subst h1 h2
      simp [Op.mutates]
    · split at h
      · obtain ⟨h1, h2⟩ := Prod.mk.injEq .. ▸ (Except.ok.injEq .. ▸ h)
        subst h1 h2
        simp [Op.mutates]
      · obtain ⟨h1, h2⟩ := Prod.mk.injEq .. ▸ (Except.ok.injEq .. ▸ h)
        subst h1 h2
        simp [Op.mutates]

open Fs in
/-- Helper: a dry-run `positive_sync` loop leaves the state unchanged and
records no mutating call. -/
theorem syncList_dry {σ : Type} (S : Sys σ) (root : Path) :
    ∀ (l : List (Path × Path)) (st st2 : σ) (ops : List Op),
      syncList S root true st l = .ok (st2, ops) →
      st2 = st ∧ ops.all (fun o => !o.mutates) = true
  | [], st, st2, ops, h => by
    simp only [syncList] at h
    obtain ⟨h1, h2⟩ := Prod.mk.injEq .. ▸ (Except.ok.injEq .. ▸ h)
    subst h1 h2
    simp
  | (dest, source) :: rest, st, st2, ops, h => by
    simp only [syncList] at h
    cases h1 : positive_sync_one S root true st source dest with
    | error e => rw [h1] at h; exact absurd h (by simp)
    | ok r1 =>
      obtain ⟨stA, opsA⟩ := r1
      rw [h1] at h
      dsimp only at h
      cases h2 : syncList S root true stA rest with
      | error e => rw [h2] at h; exact absurd h (by simp)
      | ok r2 =>
        obtain ⟨stB, opsB⟩ := r2
        rw [h2] at h
        dsimp only at h
        obtain ⟨ha, hb⟩ := Prod.mk.injEq .. ▸ (Except.ok.injEq .. ▸ h)
        obtain ⟨e1, e2⟩ := posOne_dry S root st source dest stA opsA h1
        obtain ⟨e3, e4⟩ := syncList_dry S root rest stA stB opsB h2
        subst ha hb
        constructor
        · rw [e3, e1]
        · simp only [List.all_append]
          rw [e2, e4]
          rfl

namespace Neg

open Fs

/- Helper (mutual): a dry-run `negative_sync` walk keeps every entry and
records no mutating call. -/
mutual
theorem negEntries_dry (keep : Path → Bool) (p : Path) :
    ∀ es, (negEntries keep true p es).1 = es ∧
      ∀ o ∈ (negEntries keep true p es).2, o.mutates = false
  | .nil => by simp [negEntries]
  | .cons name .file rest => by
    obtain ⟨ih1, ih2⟩ := negEntries_dry keep p rest
    by_cases hk : keep (p ++ [name])
    · refine ⟨by simp [negEntries, hk, ih1], ?_⟩
      intro o ho
      simp only [negEntries, hk, if_true] at ho
      exact ih2 o ho
    · refine ⟨by simp [negEntries, hk, ih1], ?_⟩
      intro o ho
      simp [negEntries, hk] at ho
      rcases ho with rfl | rfl | ho
      · rfl
      · rfl
      · exact ih2 o ho
  | .cons name (.dir es) rest => by
    obtain ⟨ihc1, ihc2⟩ := negDirAt_dry keep (p ++ [name]) es
    obtain ⟨ih1, ih2⟩ := negEntries_dry keep p rest
    refine ⟨by simp [negEntries, ihc1, ih1], ?_⟩
    intro o ho
    simp only [negEntries, ihc1] at ho
    rcases List.mem_append.mp ho with ho | ho
    · exact ihc2 o ho
    · exact ih2 o ho
theorem negDirAt_dry (keep : Path → Bool) (p : Path) (es : Entries) :
    (negDirAt keep true p es).1 = some (.dir es) ∧
      ∀ o ∈ (negDirAt keep true p es).2, o.mutates = false := by
  obtain ⟨ih1, ih2⟩ := negEntries_dry keep p es
  by_cases hn : (negEntries keep true p es).1.isNil
  · refine ⟨by simp only [negDirAt, ih1]; split <;> rfl, ?_⟩
    intro o ho
    simp only [negDirAt, hn, if_true] at ho
    rcases List.mem_append.mp ho with ho | ho
    · exact ih2 o ho
    rcases List.mem_cons.mp ho with rfl | ho
    · rfl
    rcases List.mem_cons.mp ho with rfl | ho
    · rfl
    · exact absurd ho (List.not_mem_nil o)
  · refine ⟨by simp only [negDirAt, ih1]; split <;> rfl, ?_⟩
    intro o ho
    simp only [negDirAt, hn, Bool.false_eq_true, if_false] at ho
    exact ih2 o ho
end

end Neg

open Neg Fs in
/-- C3: with the dry-run flag set, neither pass mutates anything: the
destination tree survives `negative_sync` unchanged and its trace holds no
unlink/rmdir/makedirs/copyfile call, and any state `positive_sync` finishes
in is the state it started from, again with a mutation-free trace, for every
mapping and every starting state. -/
theorem dry_run_no_mutations :
    (∀ (keep : Path → Bool) (destRoot : Path) (t : FTree),
      (negative_sync keep true destRoot t).1 = some t ∧
      ((negative_sync keep true destRoot t).2.all (fun o => !o.mutates)) = true)
    ∧ (∀ (σ : Type) (S : Sys σ) (root : Path) (st : σ)
        (paths : List (Path × Path)) (st2 : σ) (ops : List Op),
        positive_sync S root true st paths = .ok (st2, ops) →
        st2 = st ∧ (ops.all (fun o => !o.mutates)) = true) := by
  constructor
  · intro keep destRoot t
    cases t with
    | file => simp [negative_sync]
    | dir es =>
      have h := negDirAt_dry keep destRoot es
      exact ⟨h.1, List.all_eq_true.mpr (fun o ho => by rw [h.2 o ho]; rfl)⟩
  · intro σ S root st paths st2 ops h
    exact syncList_dry S root (paths.mergeSort pairPathLe) st st2 ops h

open Neg Fs in
/-- Witness for C3: a dry run over a sample tree and a sample one-entry
mapping touches nothing. -/
theorem dry_run_no_mutations_witness :
    (negative_sync (fun _ => false) true ["d"] treeEx).1 = some treeEx ∧
    (fsEx = fsEx ∧
     (([Op.debugCopy ["a"], Op.wouldMakedirs ["d"],
        Op.wouldCopyfile ["s", "a"] ["d", "a"]].all (fun o => !o.mutates)) = true)) :=
  ⟨(dry_run_no_mutations.1 (fun _ => false) ["d"] treeEx).1,
   dry_run_no_mutations.2 FS (fsSys 0) ["s"] fsEx
     [(["d", "a"], ["s", "a"])] fsEx
     [Op.debugCopy ["a"], Op.wouldMakedirs ["d"],
      Op.wouldCopyfile ["s", "a"] ["d", "a"]]
     (by simp only [positive_sync, List.mergeSort_singleton]; rfl)⟩

open Neg Fs in
/-- C10: the empty-directory pruning of `negative_sync` applies to the
destination root itself — when its processed entry list comes out empty, the
root is removed (and its removal is reported under dry-run when `os.listdir`
finds it empty, i.e. when it was empty to begin with). -/
theorem negative_sync_prunes_root (keep : Path → Bool) (destRoot : Path)
    (es : Entries)
    (h : (negEntries keep false destRoot es).1.isNil = true) :
    (negative_sync keep false destRoot (.dir es)).1 = none
    ∧ Op.rmdirOp destRoot ∈ (negative_sync keep false destRoot (.dir es)).2
    ∧ (es.isNil = true →
        Op.wouldRmdir destRoot ∈ (negative_sync keep true destRoot (.dir es)).2) := by
  refine ⟨?_, ?_, ?_⟩
  · simp [negative_sync, negDirAt, h]
  · simp [negative_sync, negDirAt, h]
  · intro hnil
    cases es with
    | nil => simp [negative_sync, negDirAt, negEntries, Entries.isNil]
    | cons name t rest => simp [Entries.isNil] at hnil

open Neg Fs in
/-- Witness for C10: with nothing to keep, a root holding one stray file is
erased down to and including the root `d`; on an already-empty root, dry-run
reports the root removal. -/
theorem negative_sync_prunes_root_witness :
    (negative_sync (fun _ => false) false ["d"]
      (.dir (.cons "x.mp3" .file .nil))).1 = none
    ∧ Op.rmdirOp ["d"] ∈ (negative_sync (fun _ => false) false ["d"]
        (.dir (.cons "x.mp3" .file .nil))).2
    ∧ Op.wouldRmdir ["d"] ∈
        (negative_sync (fun _ => false) true ["d"] (.dir .nil)).2 := by
  have h : (negEntries (fun _ => false) false ["d"]
      (.cons "x.mp3" .file .nil)).1.isNil = true := by
    simp [negEntries, Entries.isNil]
  exact ⟨(negative_sync_prunes_root _ _ _ h).1,
    (negative_sync_prunes_root _ _ _ h).2.1,
    (negative_sync_prunes_root (fun _ => false) ["d"] .nil
      (by simp [negEntries, Entries.isNil])).2.2 rfl⟩

namespace Paths

/-- Helper: the `normpath` component loop moves plain-name components over
unchanged. -/
theorem normLoop_allNormal : ∀ (l : List String) (flag : Bool) (acc : List String),
    (∀ c ∈ l, isNormalComp c = true) → normLoop flag acc l = acc ++ l
  | [], flag, acc, _ => by simp [normLoop]
  | c :: rest, flag, acc, h => by
    have hc := h c (List.mem_cons_self c rest)
    simp only [isNormalComp, Bool.and_eq_true, Bool.not_eq_true',
      beq_eq_false_iff_ne, ne_eq] at hc
    have h1 : ¬(c = "" ∨ c = ".") := by
      rintro (rfl | rfl)
      · exact hc.1.1 rfl
      · exact hc.1.2 rfl
    simp only [normLoop, if_neg h1, if_pos (Or.inl hc.2)]
    rw [normLoop_allNormal rest flag (acc ++ [c])
      (fun d hd => h d (List.mem_cons_of_mem c hd))]
    simp

/-- Helper: a component list is a leading run of itself extended. -/
theorem isPrefixOf_append : ∀ (l1 l2 : List String),
    l1.isPrefixOf (l1 ++ l2) = true
  | [], _ => by simp [List.isPrefixOf]
  | a :: t, l2 => by simp [List.isPrefixOf, isPrefixOf_append t l2]

/-- Helper: joining a root made of plain-name components with a relative
path of plain-name components lands inside the root. -/
theorem join_isUnder (root rel : RawPath) (hra : root.absFlag = true)
    (hrf : rel.absFlag = false)
    (hrc : ∀ c ∈ root.comps, isNormalComp c = true)
    (hrlc : ∀ c ∈ rel.comps, isNormalComp c = true) :
    isUnder (join root rel) root = true := by
  have hall : ∀ c ∈ root.comps ++ rel.comps, isNormalComp c = true := by
    intro c hc
    rcases List.mem_append.mp hc with h | h
    exacts [hrc c h, hrlc c h]
  have hj : join root rel = ⟨root.absFlag, root.comps ++ rel.comps⟩ := by
    simp [join, hrf]
  have hn : normpath (join root rel) = ⟨true, root.comps ++ rel.comps⟩ := by
    rw [hj, hra]
    simp [normpath, normLoop_allNormal _ _ _ hall]
  simp only [isUnder, hn, hra, beq_self_eq_true, Bool.true_and]
  exact isPrefixOf_append _ _

end Paths

open Paths in
/-- C5 (amended): for playlist entries whose canonical relative path is made
of plain name components (no `..` climb, not absolute) — and a normalizer
output of the same shape — the mapping entry built at construction has its
destination key under the destination root and its source value under the
source root, the roots being normalised absolute paths. -/
theorem mapping_under_roots (source dest x : RawPath)
    (normalize : RawPath → RawPath)
    (hsa : source.absFlag = true) (hda : dest.absFlag = true)
    (hsc : ∀ c ∈ source.comps, isNormalComp c = true)
    (hdc : ∀ c ∈ dest.comps, isNormalComp c = true)
    (hx : x.absFlag = false) (hxc : ∀ c ∈ x.comps, isNormalComp c = true)
    (hnx : (normalize x).absFlag = false)
    (hnxc : ∀ c ∈ (normalize x).comps, isNormalComp c = true) :
    isUnder (mappingEntry source dest normalize x).1 dest = true
    ∧ isUnder (mappingEntry source dest normalize x).2 source = true :=
  ⟨join_isUnder dest (normalize x) hda hnx hdc hnxc,
   join_isUnder source x hsa hx hsc hxc⟩

open Paths in
/-- Witness for C5 (amended): the prepared entry `Artist/Song.mp3` maps under
both roots. -/
theorem mapping_under_roots_witness :
    isUnder (mappingEntry sourceEx destEx id
      (prepare_path ⟨false, ["Artist", "Song.mp3"]⟩ sourceEx cwdEx)).1 destEx = true
    ∧ isUnder (mappingEntry sourceEx destEx id
      (prepare_path ⟨false, ["Artist", "Song.mp3"]⟩ sourceEx cwdEx)).2 sourceEx = true :=
  mapping_under_roots sourceEx destEx
    (prepare_path ⟨false, ["Artist", "Song.mp3"]⟩ sourceEx cwdEx) id
    (by decide) (by decide) (by decide) (by decide) (by decide) (by decide)
    (by decide) (by decide)

open Paths in
/-- Counterexample to C5 as stated: the playlist entry `../evil.mp3` (with
source root `/music`, destination root `/dest`, identity normalizer) yields
a mapping entry whose destination key `/dest/../evil.mp3` and source value
`/music/../evil.mp3` escape both roots. -/
theorem mapping_escapes_roots :
    isUnder (mappingEntry sourceEx destEx id
      (prepare_path rawEx sourceEx cwdEx)).1 destEx = false
    ∧ isUnder (mappingEntry sourceEx destEx id
      (prepare_path rawEx sourceEx cwdEx)).2 sourceEx = false := by
  decide

namespace Order

/-- Helper: lexicographic code-point comparison is irreflexive. -/
theorem charListLt_irrefl : ∀ as : List Char, charListLt as as = false
  | [] => rfl
  | a :: as => by simp [charListLt, lt_irrefl, charListLt_irrefl as]

/-- Helper: lexicographic code-point comparison is transitive. -/
theorem charListLt_trans : ∀ as bs cs : List Char, charListLt as bs = true →
    charListLt bs cs = true → charListLt as cs = true
  | [], [], _, h1, _ => by simp [charListLt] at h1
  | [], _ :: _, [], _, h2 => by simp [charListLt] at h2
  | [], _ :: _, _ :: _, _, _ => by simp [charListLt]
  | _ :: _, [], _, h1, _ => by simp [charListLt] at h1
  | _ :: _, _ :: _, [], _, h2 => by simp [charListLt] at h2
  | a :: as, b :: bs, c :: cs, h1, h2 => by
    simp only [charListLt] at h1 h2 ⊢
    by_cases hab : a < b
    · by_cases hbc : b < c
      · rw [if_pos (lt_trans hab hbc)]
      · rw [if_neg hbc] at h2
        by_cases hcb : c < b
        · rw [if_pos hcb] at h2
          exact absurd h2 (by simp)
        · have hbceq : b = c := le_antisymm (not_lt.mp hcb) (not_lt.mp hbc)
          subst hbceq
          rw [if_pos hab]
    · rw [if_neg hab] at h1
      by_cases hba : b < a
      · rw [if_pos hba] at h1
        exact absurd h1 (by simp)
      · rw [if_neg hba] at h1
        have habeq : a = b := le_antisymm (not_lt.mp hba) (not_lt.mp hab)
        subst habeq
        by_cases hac : a < c
        · rw [if_pos hac]
        · rw [if_neg hac] at h2 ⊢
          by_cases hca : c < a
          · rw [if_pos hca] at h2
            exact absurd h2 (by simp)
          · rw [if_neg hca] at h2 ⊢
            exact charListLt_trans as bs cs h1 h2

/-- Helper: any two character lists compare one way or are equal. -/
theorem charListLt_connex : ∀ as bs : List Char,
    charListLt as bs = true ∨ charListLt bs as = true ∨ as = bs
  | [], [] => Or.inr (Or.inr rfl)
  | [], _ :: _ => Or.inl (by simp [charListLt])
  | _ :: _, [] => Or.inr (Or.inl (by simp [charListLt]))
  | a :: as, b :: bs => by
    rcases lt_trichotomy a b with h | h | h
    · exact Or.inl (by simp [charListLt, h])
    · subst h
      rcases charListLt_connex as bs with h | h | h
      · exact Or.inl (by simp [charListLt, if_neg (lt_irrefl a), h])
      · exact Or.inr (Or.inl (by simp [charListLt, if_neg (lt_irrefl a), h]))
      · exact Or.inr (Or.inr (by rw [h]))
    · exact Or.inr (Or.inl (by simp [charListLt, h]))

/-- Helper: `strLe` is reflexive. -/
theorem strLe_refl (a : String) : strLe a a = true := by
  simp [strLe]

/-- Helper: `strLe` is transitive. -/
theorem strLe_trans {a b c : String} (h1 : strLe a b = true)
    (h2 : strLe b c = true) : strLe a c = true := by
  simp only [strLe, strLt, Bool.or_eq_true, beq_iff_eq] at h1 h2 ⊢
  rcases h1 with h1 | rfl
  · rcases h2 with h2 | rfl
    · exact Or.inl (charListLt_trans _ _ _ h1 h2)
    · exact Or.inl h1
  · exact h2

/-- Helper: `strLe` is total. -/
theorem strLe_total (a b : String) : (strLe a b || strLe b a) = true := by
  simp only [strLe, strLt, Bool.or_eq_true, beq_iff_eq]
  rcases charListLt_connex a.data b.data with h | h | h
  · exact Or.inl (Or.inl h)
  · exact Or.inr (Or.inl h)
  · refine Or.inl (Or.inr ?_)
    cases a
    cases b
    exact congrArg String.mk (by simpa using h)

/-- Helper: the tuple order of `sorted` is transitive. -/
theorem tupleLe_trans (x y z : String × String) (h1 : tupleLe x y = true)
    (h2 : tupleLe y z = true) : tupleLe x z = true := by
  obtain ⟨x1, x2⟩ := x
  obtain ⟨y1, y2⟩ := y
  obtain ⟨z1, z2⟩ := z
  simp only [tupleLe] at h1 h2 ⊢
  by_cases e1 : x1 = y1
  · subst e1
    rw [if_pos rfl] at h1
    by_cases e2 : x1 = z1
    · subst e2
      rw [if_pos rfl] at h2 ⊢
      exact strLe_trans h1 h2
    · rw [if_neg e2] at h2 ⊢
      exact h2
  · rw [if_neg e1] at h1
    by_cases e2 : y1 = z1
    · subst e2
      rw [if_neg e1]
      exact h1
    · rw [if_neg e2] at h2
      by_cases e3 : x1 = z1
      · subst e3
        have habs := charListLt_trans _ _ _ h1 h2
        rw [charListLt_irrefl] at habs
        exact absurd habs (by simp)
      · rw [if_neg e3]
        exact charListLt_trans _ _ _ h1 h2

/-- Helper: the tuple order of `sorted` is total. -/
theorem tupleLe_total (x y : String × String) :
    (tupleLe x y || tupleLe y x) = true := by
  obtain ⟨x1, x2⟩ := x
  obtain ⟨y1, y2⟩ := y
  simp only [tupleLe] at *
  by_cases e : x1 = y1
  · subst e
    rw [if_pos rfl, if_pos rfl]
    exact strLe_total x2 y2
  · rw [if_neg e, if_neg (fun h => e h.symm)]
    rcases charListLt_connex x1.data y1.data with h | h | h
    · simp [strLt, h]
    · simp [strLt, h]
    · exfalso
      apply e
      cases x1
      cases y1
      exact congrArg String.mk (by simpa using h)

/-- Helper: the tuple order bounds the destination components. -/
theorem tupleLe_fst_le {x y : String × String} (h : tupleLe x y = true) :
    strLe x.1 y.1 = true := by
  simp only [tupleLe] at h
  by_cases e : x.1 = y.1
  · rw [e]
    exact strLe_refl _
  · rw [if_neg e] at h
    simp [strLe, h]

end Order

open Order in
/-- C8: `positive_sync` visits the mapping's `(destination, source)` pairs
in a deterministic order that is a permutation of the mapping sorted by
destination path (Python's `sorted` on the items). -/
theorem positive_sync_order_sorted (paths : List (String × String)) :
    (positive_sync_order paths).Perm paths
    ∧ List.Pairwise (fun a b : String × String => strLe a.1 b.1 = true)
        (positive_sync_order paths) := by
  constructor
  · exact List.mergeSort_perm paths tupleLe
  · have hs := @List.sorted_mergeSort (String × String) tupleLe
      (fun a b c h1 h2 => tupleLe_trans a b c h1 h2)
      (fun a b => tupleLe_total a b) paths
    exact hs.imp (fun hab => tupleLe_fst_le hab)

namespace Norm

/-- Helper: a successful association-list lookup comes from a member pair. -/
theorem lookup_mem {β : Type} : ∀ (l : List (Char × β)) (c : Char) (d : β),
    l.lookup c = some d → (c, d) ∈ l
  | [], c, d, h => by simp [List.lookup] at h
  | (a, b) :: t, c, d, h => by
    rw [List.lookup_cons] at h
    cases hac : (c == a) with
    | true =>
      simp only [hac] at h
      cases h
      have : c = a := eq_of_beq hac
      subst this
      exact List.mem_cons_self _ _
    | false =>
      simp only [hac] at h
      exact List.mem_cons_of_mem _ (lookup_mem t c d h)

/-- Helper: characters of the lowercase table are free of the punctuation
class and of combining marks, and its outputs are not in its domain. -/
theorem lowerTable_facts : ∀ p ∈ lowerTable,
    inSet p.1 = false ∧ inSet p.2 = false ∧ isMn p.1 = false ∧
    isMn p.2 = false ∧ lowerTable.lookup p.2 = none := by decide

/-- Helper: decomposition outputs keep a non-mark character, and are neither
punctuation, nor uppercase, nor decomposable again. -/
theorem nfdTable_facts : ∀ p ∈ nfdTable,
    (p.2.filter (fun d => isMn d = false)) ≠ [] ∧
    ∀ d ∈ p.2, inSet d = false ∧ lowerTable.lookup d = none ∧
      (isMn d = false → nfdTable.lookup d = none) := by decide

/-- Helper: the underscore is punctuation-class, lowercase, not a mark, and
not decomposable. -/
theorem underscore_facts :
    inSet '_' = true ∧ lowerTable.lookup '_' = none ∧
    nfdTable.lookup '_' = none ∧ isMn '_' = false := by decide

/-- Helper: characters outside the lowercase table are fixed. -/
theorem pyLower_eq_of_lookup_none {c : Char} (h : lowerTable.lookup c = none) :
    pyLower c = c := by simp [pyLower, h]

/-- Helper: `pyLower` hits the table at most once. -/
theorem pyLower_idem (c : Char) : pyLower (pyLower c) = pyLower c := by
  cases h : lowerTable.lookup c with
  | none => rw [pyLower_eq_of_lookup_none h, pyLower_eq_of_lookup_none h]
  | some d =>
    have hf := lowerTable_facts _ (lookup_mem _ _ _ h)
    have hd : pyLower c = d := by simp [pyLower, h]
    rw [hd, pyLower_eq_of_lookup_none hf.2.2.2.2]

/-- Helper: lowercasing does not move characters in or out of the
punctuation class. -/
theorem inSet_pyLower (c : Char) : inSet (pyLower c) = inSet c := by
  cases h : lowerTable.lookup c with
  | none => rw [pyLower_eq_of_lookup_none h]
  | some d =>
    have hf := lowerTable_facts _ (lookup_mem _ _ _ h)
    have hd : pyLower c = d := by simp [pyLower, h]
    rw [hd, hf.2.1, hf.1]

/-- Helper: lowercasing a non-mark yields a non-mark. -/
theorem isMn_pyLower {c : Char} (h : isMn c = false) :
    isMn (pyLower c) = false := by
  cases hl : lowerTable.lookup c with
  | none => rw [pyLower_eq_of_lookup_none hl]; exact h
  | some d =>
    have hf := lowerTable_facts _ (lookup_mem _ _ _ hl)
    have hd : pyLower c = d := by simp [pyLower, hl]
    rw [hd]
    exact hf.2.2.2.1

/-- Helper: after the run collapser has just emitted an underscore, the next
emitted character is outside the punctuation class. -/
theorem collapse_head_true : ∀ (l : List Char) (c : Char),
    (collapseAux true l).head? = some c → inSet c = false
  | [], c, h => by simp [collapseAux] at h
  | b :: rest, c, h => by
    by_cases hb : inSet b = true
    · simp only [collapseAux, hb, if_true] at h
      exact collapse_head_true rest c h
    · simp only [collapseAux, hb, Bool.false_eq_true, if_false] at h
      simp only [List.head?_cons, Option.some.injEq] at h
      subst h
      simpa using hb

/-- Helper: the only punctuation-class character the collapser emits is the
underscore. -/
theorem collapse_setOnly : ∀ (l : List Char) (prev : Bool) (c : Char),
    c ∈ collapseAux prev l → inSet c = true → c = '_'
  | [], _, c, h, _ => by simp [collapseAux] at h
  | b :: rest, prev, c, h, hset => by
    by_cases hb : inSet b = true
    · cases prev with
      | true =>
        simp only [collapseAux, hb, if_true] at h
        exact collapse_setOnly rest true c h hset
      | false =>
        simp only [collapseAux, hb, if_true] at h
        rcases List.mem_cons.mp h with rfl | h
        · rfl
        · exact collapse_setOnly rest true c h hset
    · simp only [collapseAux, hb, Bool.false_eq_true, if_false] at h
      rcases List.mem_cons.mp h with rfl | h
      · exact absurd hset (by simpa using hb)
      · exact collapse_setOnly rest false c h hset

/-- Helper: collapser output characters come from the input or are the
underscore. -/
theorem collapse_mem : ∀ (l : List Char) (prev : Bool) (c : Char),
    c ∈ collapseAux prev l → c = '_' ∨ c ∈ l
  | [], _, c, h => by simp [collapseAux] at h
  | b :: rest, prev, c, h => by
    by_cases hb : inSet b = true
    · cases prev with
      | true =>
        simp only [collapseAux, hb, if_true] at h
        rcases collapse_mem rest true c h with h | h
        · exact Or.inl h
        · exact Or.inr (List.mem_cons_of_mem _ h)
      | false =>
        simp only [collapseAux, hb, if_true] at h
        rcases List.mem_cons.mp h with rfl | h
        · exact Or.inl rfl
        · rcases collapse_mem rest true c h with h | h
          · exact Or.inl h
          · exact Or.inr (List.mem_cons_of_mem _ h)
    · simp only [collapseAux, hb, Bool.false_eq_true, if_false] at h
      rcases List.mem_cons.mp h with rfl | h
      · exact Or.inr (List.mem_cons_self _ _)
      · rcases collapse_mem rest false c h with h | h
        · exact Or.inl h
        · exact Or.inr (List.mem_cons_of_mem _ h)

/-- Helper: the collapser never emits two adjacent punctuation-class
characters. -/
theorem collapse_chain : ∀ (l : List Char) (prev : Bool),
    List.Chain' (fun a b => ¬(inSet a = true ∧ inSet b = true))
      (collapseAux prev l)
  | [], _ => by simp [collapseAux]
  | b :: rest, prev => by
    by_cases hb : inSet b = true
    · cases prev with
      | true =>
        simp only [collapseAux, hb, if_true]
        exact collapse_chain rest true
      | false =>
        simp only [collapseAux, hb, if_true]
        refine List.chain'_cons'.mpr ⟨?_, collapse_chain rest true⟩
        intro y hy
        have := collapse_head_true rest y hy
        simp [this]
    · simp only [collapseAux, hb, Bool.false_eq_true, if_false]
      refine List.chain'_cons'.mpr ⟨?_, collapse_chain rest false⟩
      intro y hy
      simp [hb]

/-- Helper: a string whose punctuation-class characters are isolated
underscores is a fixed point of the collapser. -/
theorem collapse_fix : ∀ l : List Char,
    (∀ c ∈ l, inSet c = true → c = '_') →
    List.Chain' (fun a b => ¬(inSet a = true ∧ inSet b = true)) l →
    collapseAux false l = l ∧
      ((∀ c, l.head? = some c → inSet c = false) → collapseAux true l = l)
  | [], _, _ => ⟨rfl, fun _ => rfl⟩
  | b :: rest, hset, hch => by
    obtain ⟨ih1, ih2⟩ := collapse_fix rest
      (fun c hc => hset c (List.mem_cons_of_mem _ hc)) hch.tail
    by_cases hb : inSet b = true
    · have hbu : b = '_' := hset b (List.mem_cons_self _ _) hb
      have hhead : ∀ c, rest.head? = some c → inSet c = false := by
        intro c hc
        have hr := (List.chain'_cons'.mp hch).1 c hc
        by_cases hcs : inSet c = true
        · exact absurd ⟨hb, hcs⟩ hr
        · simpa using hcs
      have hrest : collapseAux true rest = rest := ih2 hhead
      constructor
      · simp only [collapseAux, hb, if_true, Bool.false_eq_true, if_false, hrest,
          hbu, underscore_facts.1]
      · intro hh
        exact absurd (hh b rfl) (by simp [hb])
    · constructor
      · simp only [collapseAux, hb, Bool.false_eq_true, if_false, ih1]
      · intro _
        simp only [collapseAux, hb, Bool.false_eq_true, if_false, ih1]

/-- Helper: a character that is no mark and not decomposable strips to
itself. -/
theorem stripChar_eq_self {c : Char} (h1 : isMn c = false)
    (h2 : nfdTable.lookup c = none) : stripChar c = [c] := by
  simp [stripChar, nfdChar, h2, h1]

/-- Helper: stripping a non-mark character never erases everything. -/
theorem stripChar_ne_nil {c : Char} (h : isMn c = false) : stripChar c ≠ [] := by
  cases hl : nfdTable.lookup c with
  | none =>
    rw [stripChar_eq_self h hl]
    simp
  | some ld =>
    have hf := nfdTable_facts _ (lookup_mem _ _ _ hl)
    have hs : stripChar c = ld.filter (fun d => isMn d = false) := by
      simp [stripChar, nfdChar, hl]
    rw [hs]
    exact hf.1

/-- Helper: case analysis of membership in a stripped decomposition. -/
theorem stripChar_cases {c d : Char} (hd : d ∈ stripChar c) :
    isMn d = false ∧
      ((nfdTable.lookup c = none ∧ d = c) ∨
        (inSet d = false ∧ lowerTable.lookup d = none ∧
          nfdTable.lookup d = none)) := by
  cases hl : nfdTable.lookup c with
  | none =>
    simp only [stripChar, nfdChar, hl, Option.getD_none] at hd
    rcases List.mem_filter.mp hd with ⟨hm, hmn⟩
    have hmn' : isMn d = false := of_decide_eq_true hmn
    simp only [List.mem_singleton] at hm
    exact ⟨hmn', Or.inl ⟨rfl, hm⟩⟩
  | some ld =>
    have hf := nfdTable_facts _ (lookup_mem _ _ _ hl)
    simp only [stripChar, nfdChar, hl, Option.getD_some] at hd
    rcases List.mem_filter.mp hd with ⟨hm, hmn⟩
    have hmn' : isMn d = false := of_decide_eq_true hmn
    have hdd := hf.2 d hm
    exact ⟨hmn', Or.inr ⟨hdd.1, hdd.2.1, hdd.2.2 hmn'⟩⟩

/-- Helper: a pointwise-singleton `flatMap` is the identity. -/
theorem flatMap_id_of {f : Char → List Char} : ∀ l : List Char,
    (∀ c ∈ l, f c = [c]) → l.flatMap f = l
  | [], _ => rfl
  | c :: rest, h => by
    simp only [List.flatMap_cons, h c (List.mem_cons_self _ _),
      flatMap_id_of rest (fun d hd => h d (List.mem_cons_of_mem _ hd))]
    rfl

/-- Helper: a run of characters outside the punctuation class has no
adjacent punctuation pair. -/
theorem chain'_of_nonset : ∀ l : List Char, (∀ d ∈ l, inSet d = false) →
    List.Chain' (fun a b => ¬(inSet a = true ∧ inSet b = true)) l
  | [], _ => by simp
  | [a], _ => List.chain'_singleton a
  | a :: b :: rest, h => by
    refine List.chain'_cons.mpr ⟨?_, chain'_of_nonset (b :: rest)
      (fun d hd => h d (List.mem_cons_of_mem _ hd))⟩
    rintro ⟨ha, _⟩
    rw [h a (List.mem_cons_self _ _)] at ha
    cases ha

/-- Helper: stripping decompositions preserves the no-adjacent-punctuation
invariant, because every non-mark character keeps a nonempty, punctuation-free
residue unless it is the underscore itself. -/
theorem chain_flatMap_strip : ∀ m : List Char,
    (∀ c ∈ m, isMn c = false) →
    (∀ c ∈ m, inSet c = true → c = '_') →
    List.Chain' (fun a b => ¬(inSet a = true ∧ inSet b = true)) m →
    List.Chain' (fun a b => ¬(inSet a = true ∧ inSet b = true))
        (m.flatMap stripChar) ∧
      (∀ d, (m.flatMap stripChar).head? = some d → inSet d = true →
        m.head? = some '_')
  | [], _, _, _ => ⟨by simp, by simp⟩
  | b :: rest, hmn, hset, hch => by
    obtain ⟨ih1, ih2⟩ := chain_flatMap_strip rest
      (fun c hc => hmn c (List.mem_cons_of_mem _ hc))
      (fun c hc => hset c (List.mem_cons_of_mem _ hc)) hch.tail
    have hbmn : isMn b = false := hmn b (List.mem_cons_self _ _)
    have hnn : stripChar b ≠ [] := stripChar_ne_nil hbmn
    have hsetb : ∀ d ∈ stripChar b, inSet d = true → d = b := by
      intro d hd hds
      rcases stripChar_cases hd with ⟨_, hc⟩
      rcases hc with ⟨_, rfl⟩ | ⟨hs, _, _⟩
      · rfl
      · rw [hs] at hds
        cases hds
    have hchb : List.Chain' (fun a b => ¬(inSet a = true ∧ inSet b = true))
        (stripChar b) := by
      cases hl : nfdTable.lookup b with
      | none =>
        rw [stripChar_eq_self hbmn hl]
        exact List.chain'_singleton _
      | some ld =>
        refine chain'_of_nonset _ ?_
        intro d hd
        rcases stripChar_cases hd with ⟨_, hc⟩
        rcases hc with ⟨hnone, _⟩ | ⟨hs, _, _⟩
        · rw [hnone] at hl
          cases hl
        · exact hs
    constructor
    · simp only [List.flatMap_cons]
      refine List.Chain'.append hchb ih1 ?_
      intro x hx y hy
      rintro ⟨hxs, hys⟩
      have hxb : x = b := hsetb x (List.mem_of_mem_getLast? hx) hxs
      have hbs : inSet b = true := by rw [← hxb]; exact hxs
      have hrest : rest.head? = some '_' := ih2 y (Option.mem_def.mp hy) hys
      have hcontra := (List.chain'_cons'.mp hch).1 '_' (Option.mem_def.mpr hrest)
      exact hcontra ⟨hbs, underscore_facts.1⟩
    · intro d hd hds
      simp only [List.flatMap_cons] at hd
      rw [List.head?_append_of_ne_nil _ hnn] at hd
      have hdm : d ∈ stripChar b := List.mem_of_mem_head? (Option.mem_def.mpr hd)
      have hdb : d = b := hsetb d hdm hds
      have hb' : b = '_' := hset b (List.mem_cons_self _ _) (hdb ▸ hds)
      rw [List.head?_cons, hb']

/-- Helper: every character of the pipeline output is a fixed point of each
stage: no mark, lowercase, not decomposable, and in the punctuation class
only as the underscore. -/
theorem normList_stable (l : List Char) (hl : ∀ c ∈ l, isMn c = false) :
    (∀ d ∈ normList l, isMn d = false ∧ pyLower d = d ∧ stripChar d = [d] ∧
      (inSet d = true → d = '_')) ∧
    List.Chain' (fun a b => ¬(inSet a = true ∧ inSet b = true)) (normList l) := by
  have hm1 : ∀ c ∈ (collapseAux false l).map pyLower, isMn c = false := by
    intro c hc
    rcases List.mem_map.mp hc with ⟨a, ha, rfl⟩
    rcases collapse_mem l false a ha with rfl | hal
    · exact isMn_pyLower underscore_facts.2.2.2
    · exact isMn_pyLower (hl a hal)
  have hm2 : ∀ c ∈ (collapseAux false l).map pyLower, inSet c = true → c = '_' := by
    intro c hc hcs
    rcases List.mem_map.mp hc with ⟨a, ha, rfl⟩
    rw [inSet_pyLower] at hcs
    have ha' : a = '_' := collapse_setOnly l false a ha hcs
    subst ha'
    exact pyLower_eq_of_lookup_none underscore_facts.2.1
  have hm4 : ∀ c ∈ (collapseAux false l).map pyLower, pyLower c = c := by
    intro c hc
    rcases List.mem_map.mp hc with ⟨a, _, rfl⟩
    exact pyLower_idem a
  have hm3 : List.Chain' (fun a b => ¬(inSet a = true ∧ inSet b = true))
      ((collapseAux false l).map pyLower) := by
    rw [List.chain'_map]
    refine (collapse_chain l false).imp ?_
    rintro a b hab ⟨h1, h2⟩
    exact hab ⟨(inSet_pyLower a) ▸ h1, (inSet_pyLower b) ▸ h2⟩
  have hout := chain_flatMap_strip ((collapseAux false l).map pyLower) hm1 hm2 hm3
  constructor
  · intro d hd
    simp only [normList] at hd
    rcases List.mem_flatMap.mp hd with ⟨b, hbm, hdb⟩
    rcases stripChar_cases hdb with ⟨hdmn, hc⟩
    rcases hc with ⟨hnone, hdc⟩ | ⟨hs, hlnone, hnnone⟩
    · subst hdc
      exact ⟨hdmn, hm4 _ hbm, stripChar_eq_self hdmn hnone,
        fun h => hm2 _ hbm h⟩
    · refine ⟨hdmn, pyLower_eq_of_lookup_none hlnone,
        stripChar_eq_self hdmn hnnone, ?_⟩
      intro h
      rw [hs] at h
      cases h
  · exact hout.1

/-- Helper: the pipeline is idempotent on mark-free inputs. -/
theorem normList_idem (l : List Char) (hl : ∀ c ∈ l, isMn c = false) :
    normList (normList l) = normList l := by
  obtain ⟨hmem, hchain⟩ := normList_stable l hl
  have h1 : collapseAux false (normList l) = normList l :=
    (collapse_fix (normList l) (fun c hc => (hmem c hc).2.2.2) hchain).1
  have h2 : (normList l).map pyLower = normList l := by
    have he : (normList l).map pyLower = (normList l).map id :=
      List.map_congr_left (fun a ha => (hmem a ha).2.1)
    rw [he, List.map_id]
  have h3 : (normList l).flatMap stripChar = normList l :=
    flatMap_id_of _ (fun c hc => (hmem c hc).2.2.1)
  calc normList (normList l)
      = ((collapseAux false (normList l)).map pyLower).flatMap stripChar := rfl
    _ = ((normList l).map pyLower).flatMap stripChar := by rw [h1]
    _ = (normList l).flatMap stripChar := by rw [h2]
    _ = normList l := h3

/-- Helper: the `String` wrapper of `normalize_name` unfolds to the character
pipeline. -/
theorem normalize_name_eq_normList (t : String) :
    normalize_name t = String.mk (normList t.data) := by
  simp only [normalize_name, normList, List.filter_flatMap]
  rfl

end Norm

open Norm in
/-- C6 (amended): `normalize_name` is deterministic (it is a pure function of
its input), and it is idempotent on every input containing no standalone
combining-mark character; inputs with combining marks can collapse further on
a second pass. -/
theorem normalize_name_idem (s : String) (h : ∀ c ∈ s.data, isMn c = false) :
    normalize_name (normalize_name s) = normalize_name s := by
  rw [normalize_name_eq_normList s,
    normalize_name_eq_normList (String.mk (normList s.data))]
  exact congrArg String.mk (normList_idem s.data h)

open Norm in
/-- Witness for C6 (amended): a realistic filename normalizes to the same
string under one and two passes. -/
theorem normalize_name_idem_witness :
    (∀ c ∈ ("My Song (Live)!.mp3" : String).data, isMn c = false) ∧
    normalize_name (normalize_name "My Song (Live)!.mp3")
      = normalize_name "My Song (Live)!.mp3" :=
  ⟨by decide, normalize_name_idem "My Song (Live)!.mp3" (by decide)⟩

open Norm in
/-- Counterexample to C6 as stated: on the three-character input
`_ U+0301 _` (an acute combining mark between underscores) one application
yields `__` but a second application collapses it to `_`, so
`normalize_name` is not idempotent on all strings. -/
theorem normalize_name_not_idem :
    normalize_name (normalize_name badInput) ≠ normalize_name badInput := by
  decide

end PlayerSync

